import Mathlib

/-!
Verification development for the Remote Commander repository.

The client is a Next.js application.  The parts of it that the properties
below concern are:

* the server actions in `src/app/actions.ts` (`launchApp`,
  `filterAppsAction`, `getAppsFromPC`, `testConnection`), and
* the client component `src/components/app-launcher.tsx`
  (`sortedAndFilteredApps`, `togglePin`, `handleSaveSettings`,
  `onDragEnd`, the QR `onScan` handler, and `fetchAndSetApps` icon
  assignment), and
* the icon table in `src/lib/mock-data.ts`.

JavaScript strings are modelled by `String`, arrays by `List`, objects by
structures, and `undefined`/absent fields by `Option`.  The network is
modelled by passing the outcome of the single `fetch` call as an explicit
`FetchOutcome` argument, together with a count (or list) of the requests
that the function issues, so that "no network request is made" is a
provable statement.  The WHATWG `URL` constructor used by `new URL(...)`
and by zod's `.url()` validator is not repository code; it is modelled by
`parseUrl` below, restricted to the `scheme://host[:port][/path]` shapes
that the application manipulates.
-/

namespace RemoteCommander

/-! ### String helpers (models of the JavaScript string primitives used) -/

/-- Model of JavaScript `String.prototype.toLowerCase` (ASCII range, which
is all the application compares). -/
def lowerStr (s : String) : String :=
  ⟨s.data.map Char.toLower⟩

/-- Model of JavaScript `String.prototype.startsWith`. -/
def strStarts (s pre : String) : Bool :=
  pre.data.isPrefixOf s.data

/-- Model of JavaScript `String.prototype.includes`: `needle` occurs as a
contiguous substring of `hay`. -/
def strContains (hay needle : String) : Bool :=
  (List.range (hay.data.length + 1)).any fun i => needle.data.isPrefixOf (hay.data.drop i)

/-- Lexicographic comparison of character lists; the sign model of
JavaScript `String.prototype.localeCompare` used by the sort comparators
(the default locale collation is modelled as code-point order). -/
def charListLt : List Char → List Char → Bool
  | _, [] => false
  | [], _ :: _ => true
  | a :: as, b :: bs => if a < b then true else if b < a then false else charListLt as bs

/-- Sign of `a.localeCompare(b)` in the model order. -/
def strCmp (a b : String) : Int :=
  if charListLt a.data b.data then -1
  else if charListLt b.data a.data then 1
  else 0

/-- Alphabetical order (non-strict) in the model collation: `a` is not
after `b`. -/
def strLe (a b : String) : Bool :=
  !(charListLt b.data a.data)

/-- Model of `Array.prototype.join(', ')` as used on the zod error list. -/
def joinComma : List String → String
  | [] => ""
  | [s] => s
  | s :: rest@(_ :: _) => s ++ ", " ++ joinComma rest

/-- First index of `name` in a list; agrees with JavaScript
`Array.prototype.indexOf` whenever `name` is present, which is the only
situation in which the code consults it (the comparator branch is guarded
by `includes`). -/
def idxOf (name : String) : List String → Nat
  | [] => 0
  | x :: rest => if x = name then 0 else idxOf name rest + 1

/-! ### URL model

The application validates and normalises URLs through the platform
`URL` constructor (directly in `handleSaveSettings`, and indirectly via
zod's `.url()` check in `launchApp`).  That constructor is a browser
built-in, not repository code; `parseUrl` models it for strings of the
shape `scheme://host[:port][/path...]`: the scheme must be a letter
followed by letters, digits, `+`, `-` or `.` and must be followed by
`://`; the host is the non-empty run of characters up to `:` or `/`; the
port, when present, is a (possibly empty) run of digits that must be
followed by `/` or the end of the string; everything from the first `/`
on is kept verbatim as the path.  Strings outside this shape are treated
as failing to parse. -/

/-- URL object as produced by the model of the `URL` constructor.  An
empty `port` means the URL specifies no port (the falsy `url.port` that
`handleSaveSettings` tests); an empty `path` prints as `/`. -/
structure UrlObj where
  scheme : String
  host : String
  port : String
  path : String
deriving DecidableEq

/-- Valid URL scheme: a letter followed by letters, digits, `+`, `-`, `.`. -/
def validScheme : List Char → Bool
  | [] => false
  | c :: rest => c.isAlpha && rest.all fun d => d.isAlphanum || d = '+' || d = '-' || d = '.'

/-- Parse the part after `scheme://` into host, port and path. -/
def parseAuthority (cs : List Char) : Option (List Char × List Char × List Char) :=
  let host := cs.takeWhile fun c => decide (c ≠ ':') && decide (c ≠ '/')
  if host.isEmpty then none
  else
    match cs.drop host.length with
    | [] => some (host, [], [])
    | ':' :: r2 =>
      let port := r2.takeWhile Char.isDigit
      match r2.drop port.length with
      | [] => some (host, port, [])
      | '/' :: r3 => some (host, port, '/' :: r3)
      | _ => none
    | '/' :: r3 => some (host, [], '/' :: r3)
    | _ => none

/-- Model of `new URL(s)` (see the section comment for the shape it
covers); `none` models the constructor throwing. -/
def parseUrl (s : String) : Option UrlObj :=
  let scheme := s.data.takeWhile fun c => decide (c ≠ ':')
  if validScheme scheme then
    match s.data.drop scheme.length with
    | ':' :: '/' :: '/' :: rest =>
      match parseAuthority rest with
      | some (h, p, path) => some ⟨⟨scheme⟩, ⟨h⟩, ⟨p⟩, ⟨path⟩⟩
      | none => none
    | _ => none
  else none

/-- Model of `url.toString()`: an empty path serialises as `/`. -/
def urlToString (u : UrlObj) : String :=
  u.scheme ++ "://" ++ u.host ++ (if u.port = "" then "" else ":" ++ u.port) ++
    (if u.path = "" then "/" else u.path)

/-- Model of `.replace(/\/$/, '')`: remove one trailing slash. -/
def stripTrailingSlash (s : String) : String :=
  if s.data.getLast? = some '/' then ⟨s.data.dropLast⟩ else s

/-! ### Server actions (`src/app/actions.ts`) -/

/-- Outcome of the single `fetch` call an action performs: either the
promise rejected (`thrown`, with the error message), or a response
arrived with the given HTTP status and JSON body.  `bodyMessage = none`
models a body whose JSON has no `message` field (or fails to parse). -/
inductive FetchOutcome where
  | thrown (message : String)
  | response (status : Nat) (bodySuccess : Bool) (bodyMessage : Option String)
deriving DecidableEq

/-- Model of `response.ok`: status in the 2xx..3xx-exclusive range. -/
def statusOk (status : Nat) : Bool :=
  200 ≤ status && status < 300

/-- JavaScript `a || b` on an optional string: the default is used when
the field is absent or the empty string (falsy). -/
def jsOr (s : Option String) (dflt : String) : String :=
  match s with
  | some m => if m = "" then dflt else m
  | none => dflt

/-- Form state returned by the `launchApp` server action. -/
structure FormState where
  success : Bool
  message : String
deriving DecidableEq

/-- Error messages produced by `launchAppSchema.safeParse`: zod collects
the `min(1)` failure for `appName` and the `.url()` failure for
`localServerUrl`, in field order. -/
def validationErrors (appName localServerUrl : String) : List String :=
  (if appName = "" then ["App name cannot be empty."] else []) ++
    (if (parseUrl localServerUrl).isSome then [] else ["Please set a valid server URL in settings."])

/-- Model of the `launchApp` server action.  The second component of the
result counts the `fetch` calls performed (0 or 1). -/
def launchApp (net : FetchOutcome) (appName localServerUrl : String) : FormState × Nat :=
  let errs := validationErrors appName localServerUrl
  if errs.isEmpty then
    match net with
    | .thrown msg =>
      if strContains msg "fetch" || strContains msg "Failed to fetch" then
        ({ success := false,
           message := "Could not connect to your PC. Is the server running at " ++ localServerUrl ++ "?" }, 1)
      else
        ({ success := false,
           message := "Failed to launch " ++ appName ++ ". Check if the local server is running." }, 1)
    | .response status bodySuccess bodyMessage =>
      if statusOk status then
        ({ success := bodySuccess,
           message := jsOr bodyMessage (appName ++ " launched successfully.") }, 1)
      else
        let errMsg := jsOr bodyMessage "Failed to launch app."
        if strContains errMsg "fetch" || strContains errMsg "Failed to fetch" then
          ({ success := false,
             message := "Could not connect to your PC. Is the server running at " ++ localServerUrl ++ "?" }, 1)
        else
          ({ success := false,
             message := "Failed to launch " ++ appName ++ ". Check if the local server is running." }, 1)
  else
    ({ success := false, message := "Invalid input: " ++ joinComma errs }, 0)

/-- The plain substring fallback filter inside `filterAppsAction`. -/
def filterAppsSubstring (query : String) (apps : List String) : List String :=
  apps.filter fun app => strContains (lowerStr app) (lowerStr query)

/-- Model of the `filterAppsAction` server action; the outcome of the AI
call `filterApps` is passed explicitly (`Except.error` models the call
throwing). -/
def filterAppsAction (ai : Except String (List String)) (query : String) (apps : List String) :
    List String :=
  if query = "" then apps
  else
    match ai with
    | .ok result => result
    | .error _ => filterAppsSubstring query apps

/-- Model of the `testConnection` server action: the Bool result together
with the list of requests issued, each recorded as (method, url). -/
def testConnection (net : FetchOutcome) (serverUrl : String) : Bool × List (String × String) :=
  if serverUrl = "" then (false, [])
  else
    match net with
    | .thrown _ => (false, [("GET", serverUrl ++ "/apps")])
    | .response status _ _ => (statusOk status, [("GET", serverUrl ++ "/apps")])

/-! ### Client component (`src/components/app-launcher.tsx`) -/

/-- Application entry as the client manipulates it. -/
structure App where
  name : String
  icon : String
deriving DecidableEq

/-- The comparator passed to `filtered.sort` in `sortedAndFilteredApps`. -/
def appCmp (pinned : List String) (a b : App) : Int :=
  if a.name ∈ pinned ∧ b.name ∉ pinned then -1
  else if a.name ∉ pinned ∧ b.name ∈ pinned then 1
  else if a.name ∈ pinned ∧ b.name ∈ pinned then
    (idxOf a.name pinned : Int) - (idxOf b.name pinned : Int)
  else strCmp a.name b.name

/-- Non-strict order induced by the comparator. -/
def appLe (pinned : List String) (a b : App) : Bool :=
  appCmp pinned a b ≤ 0

/-- The search filter step of `sortedAndFilteredApps`: the query string is
falsy (empty) or the case-insensitive substring filter applies. -/
def searchFiltered (query : String) (apps : List App) : List App :=
  if query = "" then apps
  else apps.filter fun app => strContains (lowerStr app.name) (lowerStr query)

/-- Model of the `sortedAndFilteredApps` memo: filter, then sort with the
pin-aware comparator (the JavaScript engine sort is modelled by
`mergeSort`, a comparison sort consistent with the comparator). -/
def sortedAndFilteredApps (pinned : List String) (query : String) (apps : List App) : List App :=
  (searchFiltered query apps).mergeSort (appLe pinned)

/-- Model of `togglePin`: remove the name when present, append it when
absent. -/
def togglePin (appName : String) (pinnedApps : List String) : List String :=
  if appName ∈ pinnedApps then pinnedApps.filter fun name => name ≠ appName
  else pinnedApps ++ [appName]

/-- The `tempServerUrl.includes('://') ? tempServerUrl :
`http://${tempServerUrl}`` normalisation in `handleSaveSettings`. -/
def withScheme (s : String) : String :=
  if strContains s "://" then s else "http://" ++ s

/-- Model of `handleSaveSettings`: `none` models the early return or the
catch branch (invalid URL toast, nothing saved); `some url` models
`saveUrl(url)`. -/
def handleSaveSettings (tempServerUrl : String) : Option String :=
  if tempServerUrl = "" then none
  else
    match parseUrl (withScheme tempServerUrl) with
    | none => none
    | some u =>
      let u2 := if u.port = "" then { u with port := "8000" } else u
      some (stripTrailingSlash (urlToString u2))

/-- Stored server URL after a save attempt: unchanged unless the input is
accepted. -/
def savedServerUrl (stored tempServerUrl : String) : String :=
  match handleSaveSettings tempServerUrl with
  | none => stored
  | some url => url

/-- Model of the `QrScanner` `onScan` handler restricted to its effect on
the stored server URL: given the current stored URL and the scanned text,
return the new stored URL and whether the text was adopted.  The handler
ignores a falsy (empty) text, adopts the text verbatim when it starts
with `http://` or `https://`, and otherwise shows the invalid-QR toast
and leaves the URL alone. -/
def onScanResult (stored text : String) : String × Bool :=
  if text = "" then (stored, false)
  else if strStarts text "http://" || strStarts text "https://" then (text, true)
  else (stored, false)

/-- Location inside a droppable, as delivered by react-beautiful-dnd. -/
structure DraggableLocation where
  droppableId : String
  index : Nat
deriving DecidableEq

/-- Drop result delivered to `onDragEnd`. -/
structure DropResult where
  source : DraggableLocation
  destination : Option DraggableLocation
deriving DecidableEq

/-- Model of `onDragEnd` acting on the pinned-names list.  The two
`splice` calls are modelled by `eraseIdx` and `insertIdx`, which agree
with `splice` for the in-range indices react-beautiful-dnd delivers (the
guard returns the list unchanged for a missing destination or a drag not
entirely inside the Pinned group). -/
def onDragEnd (result : DropResult) (pinnedApps : List String) : List String :=
  match result.destination with
  | none => pinnedApps
  | some destination =>
    if destination.droppableId = "Pinned" ∧ result.source.droppableId = "Pinned" then
      match pinnedApps[result.source.index]? with
      | none => pinnedApps
      | some item => (pinnedApps.eraseIdx result.source.index).insertIdx destination.index item
    else pinnedApps

/-! ### Icon assignment (`fetchAndSetApps` and `src/lib/mock-data.ts`) -/

/-- `Object.keys(ICONS)` in insertion order. -/
def allIcons : List String :=
  ["code", "terminal", "chrome", "figma", "bot", "fileText", "gitBranch", "mic", "music", "camera"]

/-- Application entry as fetched from the PC, before icon resolution;
`icon = none` models an absent icon field. -/
structure RawApp where
  name : String
  icon : Option String
deriving DecidableEq

/-- Application entry after `fetchAndSetApps` resolves the icon. -/
structure ProcApp where
  name : String
  icon : String
deriving DecidableEq

/-- The name-match-or-cyclic part of the icon expression:
`allIcons.find(n => name.toLowerCase().includes(n)) || allIcons[i % allIcons.length]`. -/
def resolveByName (name : String) (iconIndex : Nat) : String :=
  (allIcons.find? fun iconName => strContains (lowerStr name) iconName).getD
    (allIcons.getD (iconIndex % allIcons.length) "code")

/-- The full icon expression `app.icon || <name match> || <cyclic>` for
the app processed with the given value of the running `iconIndex`
counter (a falsy explicit icon falls through). -/
def resolveIcon (app : RawApp) (iconIndex : Nat) : String :=
  match app.icon with
  | some ic => if ic = "" then resolveByName app.name iconIndex else ic
  | none => resolveByName app.name iconIndex

/-- Process the apps of one group, threading the running `iconIndex`
counter (it is incremented once per app). -/
def processApps : List RawApp → Nat → List ProcApp
  | [], _ => []
  | app :: rest, iconIndex => ⟨app.name, resolveIcon app iconIndex⟩ :: processApps rest (iconIndex + 1)

/-- Model of the processing loop of `fetchAndSetApps`: groups are visited
in order and the `iconIndex` counter keeps running across groups. -/
def processGroups : List (String × List RawApp) → Nat → List (String × List ProcApp)
  | [], _ => []
  | (g, apps) :: rest, iconIndex =>
    (g, processApps apps iconIndex) :: processGroups rest (iconIndex + apps.length)

/-! ### Order properties of the model collation and of the sort comparator -/

/-- Strict lexicographic order on character lists is asymmetric. -/
theorem charListLt_asymm : ∀ (x y : List Char), charListLt x y = true → charListLt y x = false := by
  intro x
  induction x with
  | nil =>
    intro y h
    cases y with
    | nil => exact Bool.noConfusion h
    | cons b bs => rfl
  | cons a as ih =>
    intro y h
    cases y with
    | nil => exact Bool.noConfusion h
    | cons b bs =>
      simp only [charListLt] at h ⊢
      rcases lt_trichotomy a b with hab | hab | hab
      · rw [if_neg (lt_asymm hab), if_pos hab]
      · subst hab
        rw [if_neg (lt_irrefl a), if_neg (lt_irrefl a)] at h ⊢
        exact ih bs h
      · rw [if_neg (lt_asymm hab), if_pos hab] at h
        exact Bool.noConfusion h

/-- Strict lexicographic order on character lists is transitive. -/
theorem charListLt_trans : ∀ (x y z : List Char),
    charListLt x y = true → charListLt y z = true → charListLt x z = true := by
  intro x
  induction x with
  | nil =>
    intro y z hxy hyz
    cases y with
    | nil => exact Bool.noConfusion hxy
    | cons b bs =>
      cases z with
      | nil => exact Bool.noConfusion hyz
      | cons c cs => rfl
  | cons a as ih =>
    intro y z hxy hyz
    cases y with
    | nil => exact Bool.noConfusion hxy
    | cons b bs =>
      cases z with
      | nil => exact Bool.noConfusion hyz
      | cons c cs =>
        simp only [charListLt] at hxy hyz ⊢
        rcases lt_trichotomy a b with hab | hab | hab
        · rcases lt_trichotomy b c with hbc | hbc | hbc
          · rw [if_pos (lt_trans hab hbc)]
          · subst hbc; rw [if_pos hab]
          · rw [if_neg (lt_asymm hbc), if_pos hbc] at hyz
            exact Bool.noConfusion hyz
        · subst hab
          rcases lt_trichotomy a c with hac | hac | hac
          · rw [if_pos hac]
          · subst hac
            rw [if_neg (lt_irrefl a), if_neg (lt_irrefl a)] at hxy hyz ⊢
            exact ih bs cs hxy hyz
          · rw [if_neg (lt_asymm hac), if_pos hac] at hyz
            exact Bool.noConfusion hyz
        · rw [if_neg (lt_asymm hab), if_pos hab] at hxy
          exact Bool.noConfusion hxy

/-- Two character lists neither of which is lexicographically below the
other are equal. -/
theorem charListLt_conn : ∀ (x y : List Char),
    charListLt x y = false → charListLt y x = false → x = y := by
  intro x
  induction x with
  | nil =>
    intro y hxy _
    cases y with
    | nil => rfl
    | cons b bs => exact Bool.noConfusion hxy
  | cons a as ih =>
    intro y hxy hyx
    cases y with
    | nil => exact Bool.noConfusion hyx
    | cons b bs =>
      simp only [charListLt] at hxy hyx
      rcases lt_trichotomy a b with hab | hab | hab
      · rw [if_pos hab] at hxy
        exact Bool.noConfusion hxy
      · subst hab
        rw [if_neg (lt_irrefl a), if_neg (lt_irrefl a)] at hxy hyx
        rw [ih bs hxy hyx]
      · rw [if_pos hab] at hyx
        exact Bool.noConfusion hyx

/-- The non-strict form of the lexicographic order is transitive. -/
theorem charListLt_false_trans (x y z : List Char)
    (h1 : charListLt y x = false) (h2 : charListLt z y = false) : charListLt z x = false := by
  cases hzx : charListLt z x with
  | false => rfl
  | true =>
    cases hyz : charListLt y z with
    | true =>
      rw [charListLt_trans y z x hyz hzx] at h1
      exact Bool.noConfusion h1
    | false =>
      have heq : y = z := charListLt_conn y z hyz h2
      rw [heq, hzx] at h1
      exact Bool.noConfusion h1

/-- A `localeCompare` model result is nonpositive exactly when the second
string is not lexicographically below the first. -/
theorem strCmp_nonpos_iff (a b : String) : strCmp a b ≤ 0 ↔ charListLt b.data a.data = false := by
  unfold strCmp
  split_ifs with h1 h2
  · constructor
    · intro _; exact charListLt_asymm _ _ h1
    · intro _; norm_num
  · constructor
    · intro hc; norm_num at hc
    · intro hc; rw [hc] at h2; exact Bool.noConfusion h2
  · constructor
    · intro _; simpa using h2
    · intro _; norm_num

/-- The empty needle is contained in every haystack. -/
theorem strContains_nil (s : String) : strContains s "" = true := by
  unfold strContains
  refine List.any_eq_true.mpr ⟨0, ?_, ?_⟩
  · simp
  · show List.isPrefixOf [] (List.drop 0 s.data) = true
    exact List.isPrefixOf_nil_left

/-- Comparator value when both apps are pinned. -/
theorem appCmp_pp (pinned : List String) {a b : App}
    (h1 : a.name ∈ pinned) (h2 : b.name ∈ pinned) :
    appCmp pinned a b = (idxOf a.name pinned : Int) - (idxOf b.name pinned : Int) := by
  simp [appCmp, h1, h2]

/-- Comparator value when only the first app is pinned. -/
theorem appCmp_pu (pinned : List String) {a b : App}
    (h1 : a.name ∈ pinned) (h2 : b.name ∉ pinned) : appCmp pinned a b = -1 := by
  simp [appCmp, h1, h2]

/-- Comparator value when only the second app is pinned. -/
theorem appCmp_up (pinned : List String) {a b : App}
    (h1 : a.name ∉ pinned) (h2 : b.name ∈ pinned) : appCmp pinned a b = 1 := by
  simp [appCmp, h1, h2]

/-- Comparator value when neither app is pinned. -/
theorem appCmp_uu (pinned : List String) {a b : App}
    (h1 : a.name ∉ pinned) (h2 : b.name ∉ pinned) :
    appCmp pinned a b = strCmp a.name b.name := by
  simp [appCmp, h1, h2]

/-- The order induced by the comparator is transitive. -/
theorem appLe_trans (pinned : List String) : ∀ (a b c : App),
    appLe pinned a b = true → appLe pinned b c = true → appLe pinned a c = true := by
  intro a b c hab hbc
  simp only [appLe, decide_eq_true_eq] at hab hbc ⊢
  by_cases hpa : a.name ∈ pinned <;> by_cases hpb : b.name ∈ pinned <;>
    by_cases hpc : c.name ∈ pinned
  · rw [appCmp_pp pinned hpa hpb] at hab
    rw [appCmp_pp pinned hpb hpc] at hbc
    rw [appCmp_pp pinned hpa hpc]
    omega
  · rw [appCmp_pu pinned hpa hpc]; omega
  · rw [appCmp_up pinned hpb hpc] at hbc; omega
  · rw [appCmp_pu pinned hpa hpc]; omega
  · rw [appCmp_up pinned hpa hpb] at hab; omega
  · rw [appCmp_up pinned hpa hpb] at hab; omega
  · rw [appCmp_up pinned hpb hpc] at hbc; omega
  · rw [appCmp_uu pinned hpa hpb] at hab
    rw [appCmp_uu pinned hpb hpc] at hbc
    rw [appCmp_uu pinned hpa hpc]
    rw [strCmp_nonpos_iff] at hab hbc ⊢
    exact charListLt_false_trans _ _ _ hab hbc

/-- The order induced by the comparator is total. -/
theorem appLe_total (pinned : List String) : ∀ (a b : App),
    (appLe pinned a b || appLe pinned b a) = true := by
  intro a b
  simp only [appLe, Bool.or_eq_true, decide_eq_true_eq]
  by_cases hpa : a.name ∈ pinned <;> by_cases hpb : b.name ∈ pinned
  · rw [appCmp_pp pinned hpa hpb, appCmp_pp pinned hpb hpa]; omega
  · rw [appCmp_pu pinned hpa hpb]; omega
  · rw [appCmp_pu pinned hpb hpa]; omega
  · rw [appCmp_uu pinned hpa hpb, appCmp_uu pinned hpb hpa]
    rw [strCmp_nonpos_iff, strCmp_nonpos_iff]
    cases h : charListLt a.name.data b.name.data with
    | false => exact Or.inr rfl
    | true => exact Or.inl (charListLt_asymm _ _ h)

/-- What one comparator-ordered pair means: pinned before unpinned, pinned
pairs by pin index, unpinned pairs alphabetically. -/
theorem appLe_pairwise_imp (pinned : List String) {a b : App} (h : appLe pinned a b = true) :
    (b.name ∈ pinned → a.name ∈ pinned) ∧
    (a.name ∈ pinned → b.name ∈ pinned → idxOf a.name pinned ≤ idxOf b.name pinned) ∧
    (a.name ∉ pinned → b.name ∉ pinned → strLe a.name b.name = true) := by
  simp only [appLe, decide_eq_true_eq] at h
  by_cases hpa : a.name ∈ pinned <;> by_cases hpb : b.name ∈ pinned
  · rw [appCmp_pp pinned hpa hpb] at h
    exact ⟨fun _ => hpa, fun _ _ => by omega, fun hna => absurd hpa hna⟩
  · exact ⟨fun hb => absurd hb hpb, fun _ hb => absurd hb hpb, fun hna => absurd hpa hna⟩
  · rw [appCmp_up pinned hpa hpb] at h
    exact absurd h (by omega)
  · rw [appCmp_uu pinned hpa hpb] at h
    rw [strCmp_nonpos_iff] at h
    exact ⟨fun hb => absurd hb hpb, fun ha => absurd ha hpa, fun _ _ => by simp [strLe, h]⟩

/-! ### Permutation helpers for the drag-and-drop model -/

/-- Inserting at a position up to the length is a permutation of consing. -/
theorem insertIdx_perm_cons {α : Type} (x : α) :
    ∀ (n : Nat) (l : List α), n ≤ l.length → (List.insertIdx n x l).Perm (x :: l)
  | 0, l, _ => by
    rw [List.insertIdx_zero]
  | n + 1, [], h => by
    simp at h
  | n + 1, a :: l, h => by
    rw [List.insertIdx_succ_cons]
    exact ((insertIdx_perm_cons x n l (Nat.le_of_succ_le_succ h)).cons a).trans
      (List.Perm.swap x a l)

/-- Consing an element back onto the list it was erased from is a
permutation of the original list. -/
theorem get_cons_eraseIdx_perm {α : Type} :
    ∀ (l : List α) (i : Nat) (h : i < l.length), (l.get ⟨i, h⟩ :: l.eraseIdx i).Perm l
  | [], i, h => absurd h (Nat.not_lt_zero i)
  | a :: l, 0, _ => by
    rw [List.eraseIdx_cons_zero]
    exact List.Perm.refl _
  | a :: l, i + 1, h => by
    rw [List.eraseIdx_cons_succ]
    exact (List.Perm.swap a (l.get ⟨i, Nat.lt_of_succ_lt_succ h⟩) (l.eraseIdx i)).trans
      ((get_cons_eraseIdx_perm l i (Nat.lt_of_succ_lt_succ h)).cons a)

/-- Processing a concatenation of app lists threads the icon counter
through the first part. -/
theorem processApps_append (xs ys : List RawApp) :
    ∀ i, processApps (xs ++ ys) i = processApps xs i ++ processApps ys (i + xs.length) := by
  induction xs with
  | nil => intro i; simp [processApps]
  | cons a rest ih =>
    intro i
    have harg : i + 1 + rest.length = i + (rest.length + 1) := by omega
    simp only [List.cons_append, processApps, List.append_eq, ih (i + 1), harg, List.length_cons]

/-! ### Claim theorems -/

/-- C1: for every call to `launchApp`, if the app name is the empty string
or the server URL is not a well-formed URL, the result has
`success = false` with a message beginning `Invalid input:`, and no
network request is made (the fetch count of the call is 0). -/
theorem launchApp_invalid_input (net : FetchOutcome) (appName localServerUrl : String)
    (h : appName = "" ∨ parseUrl localServerUrl = none) :
    (launchApp net appName localServerUrl).2 = 0 ∧
    (launchApp net appName localServerUrl).1.success = false ∧
    ∃ rest, (launchApp net appName localServerUrl).1.message = "Invalid input: " ++ rest := by
  have herr : validationErrors appName localServerUrl ≠ [] := by
    unfold validationErrors
    rcases h with h | h
    · subst h; simp
    · rw [h]; simp
  have hb : (validationErrors appName localServerUrl).isEmpty = false := by
    cases hv : validationErrors appName localServerUrl with
    | nil => exact absurd hv herr
    | cons x xs => rfl
  refine ⟨?_, ?_, ⟨joinComma (validationErrors appName localServerUrl), ?_⟩⟩ <;>
    simp [launchApp, hb]

/-- C1 witness: a concrete invalid call is rejected without any fetch. -/
theorem launchApp_invalid_input_witness :
    ("" = "" ∨ parseUrl "http://x" = none) ∧
    ((launchApp (.thrown "boom") "" "http://x").2 = 0 ∧
     (launchApp (.thrown "boom") "" "http://x").1.success = false ∧
     ∃ rest, (launchApp (.thrown "boom") "" "http://x").1.message = "Invalid input: " ++ rest) :=
  ⟨Or.inl rfl, launchApp_invalid_input (.thrown "boom") "" "http://x" (Or.inl rfl)⟩

/-- C2: for every non-empty query, when the AI call throws,
`filterAppsAction` returns exactly the case-insensitive substring filter
of the names (and, being total, surfaces no error to the caller). -/
theorem filterAppsAction_fallback (e : String) (query : String) (apps : List String)
    (hq : query ≠ "") :
    filterAppsAction (.error e) query apps =
      apps.filter fun app => strContains (lowerStr app) (lowerStr query) := by
  unfold filterAppsAction filterAppsSubstring
  rw [if_neg hq]

/-- C2 witness: a concrete failing AI call falls back to the substring
filter. -/
theorem filterAppsAction_fallback_witness :
    ("Ch" : String) ≠ "" ∧
    filterAppsAction (.error "AI down") "Ch" ["Google Chrome", "Figma"] =
      ["Google Chrome", "Figma"].filter fun app => strContains (lowerStr app) (lowerStr "Ch") :=
  ⟨by decide, filterAppsAction_fallback "AI down" "Ch" ["Google Chrome", "Figma"] (by decide)⟩

/-- C3: in the displayed ordering produced by `sortedAndFilteredApps`, for
every pair in display order, a pinned app never follows an unpinned one,
two pinned apps appear in the order of their indices in the pinned-names
list, and two unpinned apps appear alphabetically by name. -/
theorem sortedAndFilteredApps_ordering (pinned : List String) (query : String) (apps : List App) :
    (sortedAndFilteredApps pinned query apps).Pairwise (fun a b =>
      (b.name ∈ pinned → a.name ∈ pinned) ∧
      (a.name ∈ pinned → b.name ∈ pinned → idxOf a.name pinned ≤ idxOf b.name pinned) ∧
      (a.name ∉ pinned → b.name ∉ pinned → strLe a.name b.name = true)) := by
  unfold sortedAndFilteredApps
  exact (List.sorted_mergeSort (appLe_trans pinned) (appLe_total pinned)
    (searchFiltered query apps)).imp fun h => appLe_pairwise_imp pinned h

/-- C3 witness: the ordering property at a concrete pinned list and app
list. -/
theorem sortedAndFilteredApps_ordering_witness :
    (sortedAndFilteredApps ["b"] "" [⟨"a", ""⟩, ⟨"b", ""⟩]).Pairwise (fun a b =>
      (b.name ∈ ["b"] → a.name ∈ ["b"]) ∧
      (a.name ∈ ["b"] → b.name ∈ ["b"] → idxOf a.name ["b"] ≤ idxOf b.name ["b"]) ∧
      (a.name ∉ ["b"] → b.name ∉ ["b"] → strLe a.name b.name = true)) :=
  sortedAndFilteredApps_ordering ["b"] "" [⟨"a", ""⟩, ⟨"b", ""⟩]

/-- C4: the displayed list keeps exactly the apps whose name contains the
query as a case-insensitive substring, and in particular the partial
query `ch` matches the name `Chrome`. -/
theorem search_filter_exact (pinned : List String) (query : String) (apps : List App) :
    (∀ a : App, a ∈ sortedAndFilteredApps pinned query apps ↔
      a ∈ apps ∧ strContains (lowerStr a.name) (lowerStr query) = true) ∧
    strContains (lowerStr "Chrome") (lowerStr "ch") = true := by
  constructor
  · intro a
    unfold sortedAndFilteredApps
    rw [List.mem_mergeSort]
    unfold searchFiltered
    by_cases hq : query = ""
    · subst hq
      rw [if_pos rfl]
      have h0 : lowerStr "" = "" := rfl
      rw [h0]
      simp [strContains_nil]
    · rw [if_neg hq]
      simp only [List.mem_filter]
  · decide

/-- C4 witness: the query `ch` keeps a concrete app named
`Google Chrome`. -/
theorem search_filter_exact_witness :
    (⟨"Google Chrome", "chrome"⟩ : App) ∈
      sortedAndFilteredApps [] "ch" [⟨"Google Chrome", "chrome"⟩, ⟨"Figma", "figma"⟩] := by
  have h := (search_filter_exact [] "ch" [⟨"Google Chrome", "chrome"⟩, ⟨"Figma", "figma"⟩]).1
    ⟨"Google Chrome", "chrome"⟩
  exact h.mpr ⟨by decide, by decide⟩

/-- C5 counterexample: the pin operation offered by the code is the single
toggle `togglePin`; applying it to a name already present does not leave
the list unchanged (it removes the name), and applying it to a name not
present does not leave the list unchanged (it appends the name), so
neither idempotence equation of the claim holds. -/
theorem togglePin_not_idempotent :
    togglePin "VS Code" ["VS Code"] ≠ ["VS Code"] ∧ togglePin "Figma" [] ≠ [] := by
  decide

/-- C5 (amended): pin and unpin are realised by a single toggle
`togglePin`; toggling a name already present removes it (acting as
unpin), toggling a name not present appends it at the end (acting as
pin), and each call flips the name's membership, so the UI never offers
pin on a pinned name nor unpin on an unpinned one. -/
theorem togglePin_toggle_semantics (appName : String) (l : List String) :
    (appName ∈ l →
      togglePin appName l = l.filter (fun name => name ≠ appName) ∧
      appName ∉ togglePin appName l) ∧
    (appName ∉ l →
      togglePin appName l = l ++ [appName] ∧
      appName ∈ togglePin appName l) := by
  constructor
  · intro h
    unfold togglePin
    rw [if_pos h]
    refine ⟨rfl, ?_⟩
    intro hmem
    rw [List.mem_filter] at hmem
    simp at hmem
  · intro h
    unfold togglePin
    rw [if_neg h]
    exact ⟨rfl, by simp⟩

/-- C5 witness: toggling a pinned name removes it and toggling an
unpinned name appends it, at concrete inputs. -/
theorem togglePin_toggle_semantics_witness :
    togglePin "VS Code" ["VS Code", "Figma"] = ["Figma"] ∧
    togglePin "Spotify" ["Figma"] = ["Figma", "Spotify"] := by
  have h1 := (togglePin_toggle_semantics "VS Code" ["VS Code", "Figma"]).1 (by decide)
  have h2 := (togglePin_toggle_semantics "Spotify" ["Figma"]).2 (by decide)
  exact ⟨h1.1.trans (by decide), h2.1.trans (by decide)⟩

/-- C6: a non-empty entered URL is accepted exactly when it parses as a
well-formed URL after the `http://` prefixing for inputs without `://`;
an accepted URL is stored as the parsed URL serialised with port `8000`
substituted whenever the parsed URL specifies no port (and verbatim port
otherwise, trailing slash stripped); a failing input saves nothing and
leaves the stored URL unchanged. -/
theorem handleSaveSettings_spec (stored tempServerUrl : String) (hne : tempServerUrl ≠ "") :
    ((handleSaveSettings tempServerUrl).isSome ↔ (parseUrl (withScheme tempServerUrl)).isSome) ∧
    (∀ u : UrlObj, parseUrl (withScheme tempServerUrl) = some u → u.port = "" →
      handleSaveSettings tempServerUrl =
        some (stripTrailingSlash (urlToString { u with port := "8000" }))) ∧
    (∀ u : UrlObj, parseUrl (withScheme tempServerUrl) = some u → u.port ≠ "" →
      handleSaveSettings tempServerUrl = some (stripTrailingSlash (urlToString u))) ∧
    (parseUrl (withScheme tempServerUrl) = none →
      handleSaveSettings tempServerUrl = none ∧ savedServerUrl stored tempServerUrl = stored) := by
  cases hp : parseUrl (withScheme tempServerUrl) with
  | none =>
    have heq : handleSaveSettings tempServerUrl = none := by
      simp [handleSaveSettings, hne, hp]
    refine ⟨by simp [heq], ?_, ?_, fun _ => ⟨heq, ?_⟩⟩
    · intro u hu; exact absurd hu (by simp)
    · intro u hu; exact absurd hu (by simp)
    · simp [savedServerUrl, heq]
  | some u =>
    by_cases hport : u.port = ""
    · have heq : handleSaveSettings tempServerUrl =
          some (stripTrailingSlash (urlToString { u with port := "8000" })) := by
        simp [handleSaveSettings, hne, hp, hport]
      refine ⟨by simp [heq], ?_, ?_, ?_⟩
      · intro v hv _
        injection hv with hv
        subst hv
        exact heq
      · intro v hv hvport
        injection hv with hv
        subst hv
        exact absurd hport hvport
      · intro hnone; exact absurd hnone (by simp)
    · have heq : handleSaveSettings tempServerUrl =
          some (stripTrailingSlash (urlToString u)) := by
        simp [handleSaveSettings, hne, hp, hport]
      refine ⟨by simp [heq], ?_, ?_, ?_⟩
      · intro v hv hvport
        injection hv with hv
        subst hv
        exact absurd hvport hport
      · intro v hv _
        injection hv with hv
        subst hv
        exact heq
      · intro hnone; exact absurd hnone (by simp)

/-- C6 witness: a concrete bare-host input is prefixed, accepted, and
stored with the default port 8000. -/
theorem handleSaveSettings_witness :
    handleSaveSettings "192.168.1.10" = some "http://192.168.1.10:8000" := by
  have h := (handleSaveSettings_spec "old" "192.168.1.10" (by decide)).2.1
    ⟨"http", "192.168.1.10", "", ""⟩ (by decide) rfl
  rw [h]
  decide

/-- C7: for every non-empty server URL, `testConnection` issues exactly
one GET request, to `<serverUrl>/apps`, and returns `true` exactly when
the fetch produced a response whose status is in the 2xx range; a thrown
network error yields `false`. -/
theorem testConnection_single_get (net : FetchOutcome) (serverUrl : String)
    (h : serverUrl ≠ "") :
    (testConnection net serverUrl).2 = [("GET", serverUrl ++ "/apps")] ∧
    ((testConnection net serverUrl).1 = true ↔
      ∃ status bodySuccess bodyMessage,
        net = .response status bodySuccess bodyMessage ∧ statusOk status = true) := by
  unfold testConnection
  rw [if_neg h]
  cases net with
  | thrown msg =>
    refine ⟨rfl, ?_⟩
    constructor
    · intro hfalse; exact absurd hfalse (by simp)
    · rintro ⟨s, b, m, heq, _⟩
      exact FetchOutcome.noConfusion heq
  | response status bs bm =>
    refine ⟨rfl, ?_⟩
    constructor
    · intro hok; exact ⟨status, bs, bm, rfl, hok⟩
    · rintro ⟨s, b, m, heq, hok⟩
      injection heq with e1 e2 e3
      subst e1
      exact hok

/-- C7 witness: a concrete 2xx response at a concrete URL yields one GET
to the list endpoint and a `true` result. -/
theorem testConnection_witness :
    (testConnection (.response 204 true none) "http://x:8000").2 =
      [("GET", "http://x:8000/apps")] ∧
    (testConnection (.response 204 true none) "http://x:8000").1 = true := by
  have h := testConnection_single_get (.response 204 true none) "http://x:8000" (by decide)
  exact ⟨h.1, h.2.mpr ⟨204, true, none, rfl, by decide⟩⟩

/-- C8: a scanned QR text is adopted, unmodified, as the server URL
exactly when it begins with `http://` or `https://`; when it is not
adopted the stored server URL is unchanged. -/
theorem qr_scan_adopts_iff (stored text : String) :
    ((onScanResult stored text).2 = true ↔
      (strStarts text "http://" || strStarts text "https://") = true) ∧
    ((onScanResult stored text).2 = true → (onScanResult stored text).1 = text) ∧
    ((onScanResult stored text).2 = false → (onScanResult stored text).1 = stored) := by
  unfold onScanResult
  by_cases ht : text = ""
  · subst ht
    rw [if_pos rfl]
    exact ⟨⟨fun h => by simp at h, fun h => absurd h (by decide)⟩,
      fun h => by simp at h, fun _ => rfl⟩
  · rw [if_neg ht]
    by_cases hs : (strStarts text "http://" || strStarts text "https://") = true
    · rw [if_pos hs]
      exact ⟨by simp [hs], fun _ => rfl, fun h => absurd h (by simp)⟩
    · rw [if_neg hs]
      refine ⟨?_, fun h => absurd h (by simp), fun _ => rfl⟩
      simp [hs]

/-- C8 witness: a concrete `https://` payload is adopted verbatim. -/
theorem qr_scan_adopts_iff_witness :
    (onScanResult "http://old:8000" "https://192.168.1.7:8000").1 = "https://192.168.1.7:8000" := by
  have h := qr_scan_adopts_iff "http://old:8000" "https://192.168.1.7:8000"
  exact h.2.1 (h.1.mpr (by decide))

/-- C9 counterexample: the app named `zzz` carries no explicit icon and
matches no icon key, and it is assigned `code` when it is the first app
processed but `terminal` when another unmatched app precedes it, so the
assigned icon does not depend on the name alone. -/
theorem icon_not_name_pure :
    processGroups [("G", [⟨"zzz", none⟩])] 0 = [("G", [⟨"zzz", "code"⟩])] ∧
    processGroups [("G", [⟨"qqq", none⟩, ⟨"zzz", none⟩])] 0 =
      [("G", [⟨"qqq", "code"⟩, ⟨"zzz", "terminal"⟩])] := by
  decide

/-- C9 (amended): icon assignment is a pure function of the app and of
its global position in iteration order: the processed groups flatten to
`processApps` applied to the flattened apps with the running counter, and
whenever the app has a truthy explicit icon tag or its lowercased name
contains some icon key, the resolved icon is independent of the
position; only the cyclic fallback for unmatched apps depends on the
position. -/
theorem icon_assignment_characterization :
    (∀ (groups : List (String × List RawApp)) (startIdx : Nat),
      ((processGroups groups startIdx).map Prod.snd).flatten =
        processApps ((groups.map Prod.snd).flatten) startIdx) ∧
    (∀ (app : RawApp) (i j : Nat),
      ((∃ ic, app.icon = some ic ∧ ic ≠ "") ∨
        (allIcons.find? fun iconName => strContains (lowerStr app.name) iconName).isSome = true) →
      resolveIcon app i = resolveIcon app j) := by
  constructor
  · intro groups
    induction groups with
    | nil => intro startIdx; simp [processGroups, processApps]
    | cons gp rest ih =>
      intro startIdx
      obtain ⟨g, apps⟩ := gp
      simp only [processGroups, List.map_cons, List.flatten_cons, ih (startIdx + apps.length),
        processApps_append]
  · intro app i j h
    rcases h with ⟨ic, hic, hne⟩ | hfind
    · simp only [resolveIcon, hic]
      rw [if_neg hne, if_neg hne]
    · obtain ⟨v, hv⟩ := Option.isSome_iff_exists.mp hfind
      have hres : ∀ k : Nat, resolveByName app.name k = v := by
        intro k
        unfold resolveByName
        rw [hv]
        rfl
      cases happ : app.icon with
      | none => simp only [resolveIcon, happ, hres i, hres j]
      | some ic =>
        by_cases hic : ic = ""
        · simp only [resolveIcon, happ, if_pos hic, hres i, hres j]
        · simp only [resolveIcon, happ, if_neg hic]

/-- C9 witness: an app whose name matches an icon key receives the same
icon at two different positions. -/
theorem icon_assignment_characterization_witness :
    resolveIcon ⟨"Google Chrome", none⟩ 0 = resolveIcon ⟨"Google Chrome", none⟩ 5 :=
  icon_assignment_characterization.2 ⟨"Google Chrome", none⟩ 0 5 (Or.inr (by decide))

/-- C10: a drop whose source and destination are both inside the Pinned
group, at valid indices, permutes the pinned-names list (same names, same
multiplicities); a missing destination or a drop not entirely inside the
Pinned group leaves the list unchanged. -/
theorem onDragEnd_preserves_pinned_set (res : DropResult) (pinned : List String) :
    (∀ d : DraggableLocation, res.destination = some d →
      d.droppableId = "Pinned" → res.source.droppableId = "Pinned" →
      res.source.index < pinned.length → d.index < pinned.length →
      (onDragEnd res pinned).Perm pinned) ∧
    (res.destination = none → onDragEnd res pinned = pinned) ∧
    (∀ d : DraggableLocation, res.destination = some d →
      ¬(d.droppableId = "Pinned" ∧ res.source.droppableId = "Pinned") →
      onDragEnd res pinned = pinned) := by
  refine ⟨?_, ?_, ?_⟩
  · intro d hd hdp hsp hsrc hdest
    have hget : pinned[res.source.index]? = some (pinned.get ⟨res.source.index, hsrc⟩) :=
      List.getElem?_eq_getElem hsrc
    simp only [onDragEnd, hd]
    rw [if_pos ⟨hdp, hsp⟩]
    simp only [hget]
    refine (insertIdx_perm_cons _ _ _ ?_).trans
      (get_cons_eraseIdx_perm pinned res.source.index hsrc)
    rw [List.length_eraseIdx, if_pos hsrc]
    omega
  · intro h
    simp only [onDragEnd, h]
  · intro d hd hnot
    simp only [onDragEnd, hd]
    rw [if_neg hnot]

/-- C10 witness: a concrete in-group drop permutes the list and a
concrete cross-group drop leaves it unchanged. -/
theorem onDragEnd_preserves_pinned_set_witness :
    (onDragEnd ⟨⟨"Pinned", 0⟩, some ⟨"Pinned", 2⟩⟩ ["a", "b", "c"]).Perm ["a", "b", "c"] ∧
    onDragEnd ⟨⟨"Pinned", 0⟩, some ⟨"Other", 2⟩⟩ ["a", "b", "c"] = ["a", "b", "c"] := by
  constructor
  · exact (onDragEnd_preserves_pinned_set ⟨⟨"Pinned", 0⟩, some ⟨"Pinned", 2⟩⟩
      ["a", "b", "c"]).1 ⟨"Pinned", 2⟩ rfl rfl rfl (by decide) (by decide)
  · exact (onDragEnd_preserves_pinned_set ⟨⟨"Pinned", 0⟩, some ⟨"Other", 2⟩⟩
      ["a", "b", "c"]).2.2 ⟨"Other", 2⟩ rfl (by decide)

end RemoteCommander
